import Mathlib

/-!
Shallow embedding of the anono.fi message-relay server core
(bin manager, message wire format, revocation manager, revocation
HTTP handler, and the password-derived-key encrypt-then-MAC helpers),
together with theorems settling the frozen specification claims.

Go maps are modelled as association lists; map iteration is modelled as
iteration in list order.  Wall-clock instants and durations are modelled
as integers (the Go zero time is modelled as 0).  Goroutine interleaving
is not modelled: each exported operation is one atomic step, matching the
lock discipline of the source.
-/

namespace Anonofi

/-- Abstract handle standing for the Go `Client` interface value
(its `SendMessage` behaviour is supplied separately as a predicate,
see `BroadcastMessage`). -/
abbrev Client : Type := Nat

/-- Message record, from the source `Message` struct: `bin_id`,
`message_id`, `ciphertext` and the server-assigned `timestamp`
(the Go zero time is modelled as the integer 0). -/
structure Message where
  BinID : Nat
  MessageID : String
  Ciphertext : List Nat
  Timestamp : Int
deriving DecidableEq, Repr

/-- Bin record from the source: its ID, the append-only message list and
the subscriber map (`Clients`), modelled as an association list. -/
structure Bin where
  ID : Nat
  Messages : List Message
  Clients : List (String × Client)
deriving DecidableEq, Repr

/-- BinManager state: the bin table, the current mask and the retention
duration (the cleanup ticker plumbing carries no state of its own). -/
structure BinManager where
  bins : List (Nat × Bin)
  currentMask : Nat
  retention : Int
deriving DecidableEq, Repr

/-- Go map indexing `m[k]`, on a map modelled as an association list. -/
def lookupAssoc {α β : Type} [DecidableEq α] : List (α × β) → α → Option β
  | [], _ => none
  | p :: rest, k => if p.1 = k then some p.2 else lookupAssoc rest k

/-- In-place mutation of the value stored under a key (Go mutation
through the pointer held in the map). -/
def updateAssoc {α β : Type} [DecidableEq α] : List (α × β) → α → (β → β) → List (α × β)
  | [], _, _ => []
  | p :: rest, k, f => if p.1 = k then (p.1, f p.2) :: rest else p :: updateAssoc rest k f

/-- Go map assignment `m[k] = v`: replace the binding if the key is
present, otherwise add it. -/
def upsertAssoc {α β : Type} [DecidableEq α] (l : List (α × β)) (k : α) (v : β) : List (α × β) :=
  if (lookupAssoc l k).isSome then
    l.map (fun p => if p.1 = k then (k, v) else p)
  else
    l ++ [(k, v)]

/-- NewBin from the source: empty message list and subscriber map. -/
def NewBin (id : Nat) : Bin :=
  { ID := id, Messages := [], Clients := [] }

/-- Bin.AddMessage: append the message to the bin's list. -/
def Bin.AddMessage (b : Bin) (msg : Message) : Bin :=
  { b with Messages := b.Messages ++ [msg] }

/-- Bin.GetRecentMessages: keep the messages whose timestamp is strictly
after `now - retention` (Go `msg.Timestamp.After(cutoff)`). -/
def Bin.GetRecentMessages (b : Bin) (retention now : Int) : List Message :=
  let cutoff := now - retention
  b.Messages.filter (fun m => cutoff < m.Timestamp)

/-- Index search of Bin.RemoveMessagesBefore: the Go loop leaves `idx = 0`
when no message is strictly after the cutoff. -/
def firstAfterIdx (cutoff : Int) : List Message → Nat → Option Nat
  | [], _ => none
  | m :: rest, i => if cutoff < m.Timestamp then some i else firstAfterIdx cutoff rest (i + 1)

/-- Bin.RemoveMessagesBefore from the source: find the first index whose
message is after the cutoff (0 when none is) and drop the messages before
it when that index is positive. -/
def Bin.RemoveMessagesBefore (b : Bin) (cutoff : Int) : Bin :=
  let idx := (firstAfterIdx cutoff b.Messages 0).getD 0
  if idx > 0 then { b with Messages := b.Messages.drop idx } else b

/-- Bin.AddClient: map upsert of the subscriber handle. -/
def Bin.AddClient (b : Bin) (clientID : String) (c : Client) : Bin :=
  { b with Clients := upsertAssoc b.Clients clientID c }

/-- Bin.RemoveClient: delete the subscriber entry. -/
def Bin.RemoveClient (b : Bin) (clientID : String) : Bin :=
  { b with Clients := b.Clients.filter (fun p => p.1 ≠ clientID) }

/-- Bin.BroadcastMessage: send to every subscriber; a failed send removes
that subscriber.  `sendOK c msg` models whether `c.SendMessage(msg)`
returns nil. -/
def Bin.BroadcastMessage (b : Bin) (sendOK : Client → Message → Bool) (msg : Message) : Bin :=
  { b with Clients := b.Clients.filter (fun p => sendOK p.2 msg) }

/-- Bin.mergeFrom: concatenate the other bin's messages after this bin's
and copy the other bin's subscriber entries over this bin's (Go map
assignment per entry, so the other bin's entries win on collision). -/
def Bin.mergeFrom (b other : Bin) : Bin :=
  { b with
    Messages := b.Messages ++ other.Messages,
    Clients := other.Clients.foldl (fun acc p => upsertAssoc acc p.1 p.2) b.Clients }

/-- BinManager.GetBinID: mask the channel ID with the current mask. -/
def BinManager.GetBinID (bm : BinManager) (channelID : Nat) : Nat :=
  channelID &&& bm.currentMask

/-- Shared shape of the two bit-scanning loops of ExpandBins and
ContractBins: starting from bit index `i` with `fuel` shifts left before
the 64-bit shift overflows the bit to zero, return the value `2 ^ j` of
the first bit index `j` satisfying `p`, or 0 when the bit overflows. -/
def findBitAux (p : Nat → Bool) : Nat → Nat → Nat
  | i, 0 => if p i then 2 ^ i else 0
  | i, fuel + 1 => if p i then 2 ^ i else findBitAux p (i + 1) fuel

/-- The ExpandBins loop: lowest bit value not set in the mask, 0 when all
64 bits are set. -/
def findLowestUnsetBit (mask : Nat) : Nat :=
  findBitAux (fun i => mask &&& 2 ^ i == 0) 0 63

/-- The ContractBins loop: lowest bit value set in the mask, 0 when the
mask is zero. -/
def findLowestSetBit (mask : Nat) : Nat :=
  findBitAux (fun i => mask &&& 2 ^ i != 0) 0 63

/-- BinManager.ExpandBins: set the lowest unset mask bit; no-op when every
bit is already set. -/
def BinManager.ExpandBins (bm : BinManager) : BinManager :=
  let newBit := findLowestUnsetBit bm.currentMask
  if newBit = 0 then bm
  else { bm with currentMask := bm.currentMask ||| newBit }

/-- One iteration of the ContractBins rebuild loop over the old bin table:
remap the bin to `oldID &&& newMask`, merging into an already-remapped bin
when the new key collides. -/
def contractStep (newMask : Nat) (acc : List (Nat × Bin)) (p : Nat × Bin) : List (Nat × Bin) :=
  let newBinID := p.1 &&& newMask
  match lookupAssoc acc newBinID with
  | some existingBin => updateAssoc acc newBinID (fun _ => existingBin.mergeFrom p.2)
  | none => acc ++ [(newBinID, p.2)]

/-- BinManager.ContractBins: clear the lowest set mask bit and rebuild the
bin table under the new mask; no-op when the mask is zero or has a single
set bit.  Go `mask &^ lowestBit` on uint64 is `mask &&& (2^64 - 1 ^^^ lowestBit)`
for mask values below `2^64`. -/
def BinManager.ContractBins (bm : BinManager) : BinManager :=
  let lowestBit := findLowestSetBit bm.currentMask
  if lowestBit = 0 ∨ bm.currentMask = lowestBit then bm
  else
    let newMask := bm.currentMask &&& ((2 ^ 64 - 1) ^^^ lowestBit)
    { bm with
      currentMask := newMask,
      bins := bm.bins.foldl (contractStep newMask) [] }

/-- BinManager.AddMessage: find or lazily create the bin under the key
`msg.BinID` (no masking), stamp the message with the admission time,
append it and broadcast it. -/
def BinManager.AddMessage (bm : BinManager) (msg : Message)
    (sendOK : Client → Message → Bool) (now : Int) : BinManager :=
  let key := msg.BinID
  let m := { msg with Timestamp := now }
  match lookupAssoc bm.bins key with
  | some _ =>
    { bm with bins := updateAssoc bm.bins key (fun b => (b.AddMessage m).BroadcastMessage sendOK m) }
  | none =>
    { bm with bins := bm.bins ++ [(key, ((NewBin key).AddMessage m).BroadcastMessage sendOK m)] }

/-- BinManager.Subscribe: find or lazily create the bin, then upsert the
subscriber entry. -/
def BinManager.Subscribe (bm : BinManager) (binID : Nat) (clientID : String) (c : Client) : BinManager :=
  match lookupAssoc bm.bins binID with
  | some _ => { bm with bins := updateAssoc bm.bins binID (fun b => b.AddClient clientID c) }
  | none => { bm with bins := bm.bins ++ [(binID, (NewBin binID).AddClient clientID c)] }

/-- BinManager.Unsubscribe: remove the subscriber when the bin exists. -/
def BinManager.Unsubscribe (bm : BinManager) (binID : Nat) (clientID : String) : BinManager :=
  match lookupAssoc bm.bins binID with
  | some _ => { bm with bins := updateAssoc bm.bins binID (fun b => b.RemoveClient clientID) }
  | none => bm

/-- BinManager.GetRecentMessages: empty for an absent bin, otherwise the
bin's snapshot within the retention window. -/
def BinManager.GetRecentMessages (bm : BinManager) (binID : Nat) (now : Int) : List Message :=
  match lookupAssoc bm.bins binID with
  | none => []
  | some b => b.GetRecentMessages bm.retention now

/-- One background cleanup tick: apply RemoveMessagesBefore with cutoff
`now - retention` to every bin. -/
def BinManager.cleanup (bm : BinManager) (now : Int) : BinManager :=
  { bm with bins := bm.bins.map (fun p => (p.1, p.2.RemoveMessagesBefore (now - bm.retention))) }

/-- Wire fields produced by Message.MarshalJSON: the embedded alias fields
plus a shadowing string `timestamp` field carrying RFC3339Nano text, which
`omitempty` drops exactly when the stamp is the zero time.  Field values
are abstracted to strings. -/
def Message.marshalJSONFields (m : Message) : List (String × String) :=
  [("bin_id", toString m.BinID),
   ("message_id", m.MessageID),
   ("ciphertext", toString m.Ciphertext)] ++
  (if m.Timestamp = 0 then [] else [("timestamp", toString m.Timestamp)])

/-- Revocation manager state: the revoked-set (serial to revocation
instant) and the referrer tree (referrer serial to child serials). -/
structure RevocationManager where
  revokedCerts : List (String × Int)
  referrerMapping : List (String × List String)
deriving DecidableEq, Repr

/-- NewRevocationManager: both maps empty. -/
def NewRevocationManager : RevocationManager :=
  { revokedCerts := [], referrerMapping := [] }

/-- Children of a serial in the referrer tree (Go `rm.referrerMapping[id]`,
empty when absent). -/
def childrenOf (m : List (String × List String)) (k : String) : List String :=
  (lookupAssoc m k).getD []

/-- Go `rm.referrerMapping[referrerID] = append(existing, certID)`. -/
def appendChild (l : List (String × List String)) (k : String) (v : String) : List (String × List String) :=
  match l with
  | [] => [(k, [v])]
  | p :: rest => if p.1 = k then (p.1, p.2 ++ [v]) :: rest else p :: appendChild rest k v

/-- RevocationManager.RegisterCertificate: no-op for an empty referrer,
otherwise append the certificate to the referrer's child list. -/
def RevocationManager.RegisterCertificate (rm : RevocationManager) (certID referrerID : String) : RevocationManager :=
  if referrerID = "" then rm
  else { rm with referrerMapping := appendChild rm.referrerMapping referrerID certID }

/-- RevocationManager.Revoke: record the serial in the revoked-set. -/
def RevocationManager.Revoke (rm : RevocationManager) (certID : String) (now : Int) : RevocationManager :=
  { rm with revokedCerts := upsertAssoc rm.revokedCerts certID now }

/-- The recursive walk of RevokeWithChildren: mark the serial revoked,
then recurse into its children.  The Go recursion carries no fuel; it
terminates exactly on walks that cannot revisit a node, so the embedding
takes fuel and the theorems require the fuel to dominate the tree
height. -/
def revokeRec (m : List (String × List String)) (now : Int) :
    Nat → String → List (String × Int) → List (String × Int)
  | 0, _, rev => rev
  | fuel + 1, id, rev =>
    (childrenOf m id).foldl (fun r c => revokeRec m now fuel c r) (upsertAssoc rev id now)

/-- RevocationManager.RevokeWithChildren: depth-first revocation of the
subtree rooted at the serial, under one exclusive lock. -/
def RevocationManager.RevokeWithChildren (rm : RevocationManager) (certID : String) (now : Int) (fuel : Nat) : RevocationManager :=
  { rm with revokedCerts := revokeRec rm.referrerMapping now fuel certID rm.revokedCerts }

/-- RevocationManager.IsRevoked: membership in the revoked-set. -/
def RevocationManager.IsRevoked (rm : RevocationManager) (certID : String) : Bool :=
  (lookupAssoc rm.revokedCerts certID).isSome

/-- RevocationManager.GetChildCount. -/
def RevocationManager.GetChildCount (rm : RevocationManager) (referrerID : String) : Nat :=
  (childrenOf rm.referrerMapping referrerID).length

/-- The serials listed in `reachList m fuel id`: the nodes the
fuel-bounded walk starting at `id` visits. -/
def reachList (m : List (String × List String)) : Nat → String → List String
  | 0, _ => []
  | fuel + 1, id => id :: (childrenOf m id).flatMap (fun c => reachList m fuel c)

/-- One edge of the referrer tree: `y` is a registered child of `x`. -/
def childStep (m : List (String × List String)) (x y : String) : Prop :=
  y ∈ childrenOf m x

/-- Reachability through the referrer tree (reflexive, so a serial
reaches itself). -/
def Reaches (m : List (String × List String)) : String → String → Prop :=
  Relation.ReflTransGen (childStep m)

/-- Client certificate as seen by the revocation handler: its serial and
the value of its referrer extension when present (`ExtractReferrerID`
errors exactly when the extension is absent). -/
structure ClientCert where
  serial : String
  referrerExt : Option String
deriving DecidableEq, Repr

/-- ExtractReferrerID: the referrer-extension value, or an error when the
certificate carries none. -/
def ExtractReferrerID (cert : ClientCert) : Except String String :=
  match cert.referrerExt with
  | some r => Except.ok r
  | none => Except.error "referrer ID not found"

/-- Server.handleCertificateRevoke, after TLS client-certificate checks:
a request for a target other than the requester's own serial is allowed
only when extracting the referrer extension of the requester's own
certificate succeeds and yields the requester's own serial; an allowed
request revokes the target (recursively when `revokeChildren`). -/
def handleCertificateRevoke (rm : RevocationManager) (clientCert : ClientCert)
    (targetCertID : String) (revokeChildren : Bool) (now : Int) (fuel : Nat) :
    Except String RevocationManager :=
  let authorized : Bool :=
    if targetCertID = clientCert.serial then true
    else
      match ExtractReferrerID clientCert with
      | Except.error _ => false
      | Except.ok referrerID => referrerID = clientCert.serial
  if authorized then
    Except.ok (if revokeChildren then rm.RevokeWithChildren targetCertID now fuel
               else rm.Revoke targetCertID now)
  else
    Except.error "Unauthorized to revoke this certificate"

/-- Key pair derived from a password: 32 bytes for AES-256 and 32 bytes
for HMAC-SHA256. -/
structure KeyPair where
  EncryptionKey : List Nat
  HMACKey : List Nat
deriving DecidableEq, Repr

/-- Modelled from the spec: the cryptographic primitives the key vault
helpers call live in the Go standard library (crypto/aes, crypto/cipher,
crypto/sha256), outside this repository.  They are abstracted to
deterministic functions: the AES-CTR keystream of GCM, the GCM
authentication tag (16 bytes), and HMAC-SHA256. -/
structure CryptoPrims where
  keystream : List Nat → List Nat → Nat → Nat
  tag : List Nat → List Nat → List Nat → List Nat
  hmacSHA256 : List Nat → List Nat → List Nat
  tag_length : ∀ key nonce ct, (tag key nonce ct).length = 16

/-- Go `aes.NewCipher` accepts exactly 16, 24 or 32 byte keys. -/
def aesKeyLengthOK (key : List Nat) : Bool :=
  key.length = 16 || key.length = 24 || key.length = 32

/-- XOR a byte sequence against the keystream starting at block offset
`i` (the byte-level content of GCM's counter-mode pass). -/
def ctrXor (ks : Nat → Nat) : Nat → List Nat → List Nat
  | _, [] => []
  | i, b :: rest => (b ^^^ ks i) :: ctrXor ks (i + 1) rest

/-- AESGCMEncrypt from pkg/crypto: check the key, draw a fresh 12-byte
nonce from the random source, and seal (counter-mode ciphertext with the
16-byte tag appended). -/
def AESGCMEncrypt (P : CryptoPrims) (plaintext key : List Nat) (rnd : Nat → Nat) :
    Except String (List Nat × List Nat) :=
  if aesKeyLengthOK key then
    let nonce := (List.range 12).map rnd
    let ct := ctrXor (P.keystream key nonce) 0 plaintext
    Except.ok (ct ++ P.tag key nonce ct, nonce)
  else
    Except.error "crypto/aes: invalid key size"

/-- AESGCMDecrypt from pkg/crypto: check the key and the 12-byte nonce,
split off the 16-byte tag, verify it and undo the counter-mode pass. -/
def AESGCMDecrypt (P : CryptoPrims) (ciphertext key nonce : List Nat) :
    Except String (List Nat) :=
  if aesKeyLengthOK key then
    if nonce.length = 12 then
      if ciphertext.length < 16 then
        Except.error "cipher: message authentication failed"
      else
        let ct := ciphertext.take (ciphertext.length - 16)
        let tg := ciphertext.drop (ciphertext.length - 16)
        if tg = P.tag key nonce ct then
          Except.ok (ctrXor (P.keystream key nonce) 0 ct)
        else
          Except.error "cipher: message authentication failed"
    else
      Except.error "invalid nonce size"
  else
    Except.error "crypto/aes: invalid key size"

/-- EncryptAndAuthenticate: AES-GCM seal with the encryption key, then
HMAC-SHA256 over ciphertext and nonce with the MAC key. -/
def EncryptAndAuthenticate (P : CryptoPrims) (data : List Nat) (keypair : KeyPair)
    (rnd : Nat → Nat) : Except String (List Nat × List Nat × List Nat) :=
  match AESGCMEncrypt P data keypair.EncryptionKey rnd with
  | Except.error e => Except.error e
  | Except.ok (ct, nonce) =>
    Except.ok (ct, nonce, P.hmacSHA256 keypair.HMACKey (ct ++ nonce))

/-- VerifyAndDecrypt: recompute the HMAC over ciphertext and nonce,
compare, and only then decrypt. -/
def VerifyAndDecrypt (P : CryptoPrims) (ciphertext nonce mac : List Nat) (keypair : KeyPair) :
    Except String (List Nat) :=
  let expectedMAC := P.hmacSHA256 keypair.HMACKey (ciphertext ++ nonce)
  if mac = expectedMAC then
    AESGCMDecrypt P ciphertext keypair.EncryptionKey nonce
  else
    Except.error "HMAC verification failed"

/-- Concrete primitive instance used to exercise the encrypt-then-MAC
helpers on explicit inputs. -/
def testPrims : CryptoPrims where
  keystream := fun _ _ i => i % 256
  tag := fun _ _ _ => List.replicate 16 0
  hmacSHA256 := fun _ d => [d.length % 256]
  tag_length := fun _ _ _ => List.length_replicate 16 0

/-- Merge a contraction collision group in table order: the first bin of
the group absorbs the others left to right (the claim's concatenation and
map union). -/
def mergeGroup : List Bin → Option Bin
  | [] => none
  | b :: bs => some (bs.foldl Bin.mergeFrom b)

/-- Claim-side subscriber union of a collision group: later bins' entries
overwrite earlier bins' entries on client-ID collision. -/
def unionLookup (bs : List Bin) (cid : String) : Option Client :=
  bs.foldl (fun acc b =>
    match lookupAssoc b.Clients cid with
    | some c => some c
    | none => acc) none

section AssocLemmas

variable {α β : Type} [DecidableEq α]

theorem lookupAssoc_append (l1 l2 : List (α × β)) (k : α) :
    lookupAssoc (l1 ++ l2) k =
      match lookupAssoc l1 k with
      | some v => some v
      | none => lookupAssoc l2 k := by
  induction l1 with
  | nil => simp [lookupAssoc]
  | cons p rest ih =>
    by_cases h : p.1 = k
    · simp [lookupAssoc, h]
    · simp [lookupAssoc, h, ih]

theorem lookupAssoc_eq_none_iff (l : List (α × β)) (k : α) :
    lookupAssoc l k = none ↔ k ∉ l.map Prod.fst := by
  induction l with
  | nil => simp [lookupAssoc]
  | cons p rest ih =>
    by_cases h : p.1 = k
    · simp [lookupAssoc, h]
    · simp [lookupAssoc, h, ih, Ne.symm h]

theorem lookupAssoc_mem {l : List (α × β)} {k : α} {v : β}
    (h : lookupAssoc l k = some v) : (k, v) ∈ l := by
  induction l with
  | nil => simp [lookupAssoc] at h
  | cons p rest ih =>
    by_cases hp : p.1 = k
    · simp [lookupAssoc, hp] at h
      have : p = (k, v) := by
        cases p
        simp at hp h
        simp [hp, h]
      rw [this] at *
      exact List.mem_cons_self _ _
    · simp [lookupAssoc, hp] at h
      exact List.mem_cons_of_mem _ (ih h)

theorem lookupAssoc_update_self {l : List (α × β)} {k : α} {v : β} (f : β → β)
    (h : lookupAssoc l k = some v) :
    lookupAssoc (updateAssoc l k f) k = some (f v) := by
  induction l with
  | nil => simp [lookupAssoc] at h
  | cons p rest ih =>
    by_cases hp : p.1 = k
    · simp [lookupAssoc, hp] at h
      simp [updateAssoc, lookupAssoc, hp, h]
    · simp [lookupAssoc, hp] at h
      simp [updateAssoc, lookupAssoc, hp, ih h]

theorem lookupAssoc_update_ne {l : List (α × β)} {k k' : α} (f : β → β) (h : k' ≠ k) :
    lookupAssoc (updateAssoc l k f) k' = lookupAssoc l k' := by
  have hkk : ¬ (k = k') := fun hh => h hh.symm
  induction l with
  | nil => simp [updateAssoc, lookupAssoc]
  | cons p rest ih =>
    by_cases hp : p.1 = k
    · have hp' : ¬ (p.1 = k') := by rw [hp]; exact fun hh => h hh.symm
      simp [updateAssoc, lookupAssoc, hp, hp', hkk]
    · by_cases hp' : p.1 = k'
      · simp [updateAssoc, lookupAssoc, hp, hp', h]
      · simp [updateAssoc, lookupAssoc, hp, hp', ih]

theorem updateAssoc_keys (l : List (α × β)) (k : α) (f : β → β) :
    (updateAssoc l k f).map Prod.fst = l.map Prod.fst := by
  induction l with
  | nil => simp [updateAssoc]
  | cons p rest ih =>
    by_cases hp : p.1 = k
    · simp [updateAssoc, hp]
    · simp [updateAssoc, hp, ih]

theorem lookupAssoc_map_replace_ne (l : List (α × β)) (k : α) (v : β) {k' : α} (h : k ≠ k') :
    lookupAssoc (l.map (fun p => if p.1 = k then (k, v) else p)) k' = lookupAssoc l k' := by
  have hkk : ¬ (k' = k) := fun hh => h hh.symm
  induction l with
  | nil => simp [lookupAssoc]
  | cons p rest ih =>
    by_cases hp : p.1 = k
    · simp [lookupAssoc, hp, h, ih]
    · by_cases hp' : p.1 = k'
      · simp [lookupAssoc, hp, hp', hkk]
      · simp [lookupAssoc, hp, hp', ih]

theorem lookupAssoc_map_replace_self (l : List (α × β)) (k : α) (v : β) :
    lookupAssoc (l.map (fun p => if p.1 = k then (k, v) else p)) k =
      if (lookupAssoc l k).isSome then some v else none := by
  induction l with
  | nil => simp [lookupAssoc]
  | cons p rest ih =>
    by_cases hp : p.1 = k
    · simp [lookupAssoc, hp]
    · simp [lookupAssoc, hp, ih]

theorem lookupAssoc_upsert (l : List (α × β)) (k : α) (v : β) (k' : α) :
    lookupAssoc (upsertAssoc l k v) k' = if k = k' then some v else lookupAssoc l k' := by
  unfold upsertAssoc
  by_cases hs : (lookupAssoc l k).isSome
  · by_cases hk : k = k'
    · subst hk
      simp [hs, lookupAssoc_map_replace_self]
    · simp [hs, hk, lookupAssoc_map_replace_ne l k v hk]
  · by_cases hk : k = k'
    · subst hk
      rw [if_neg hs, lookupAssoc_append]
      have hln : lookupAssoc l k = none := by
        cases h : lookupAssoc l k
        · rfl
        · rw [h] at hs; simp at hs
      simp [hln, lookupAssoc]
    · rw [if_neg hs, lookupAssoc_append, if_neg hk]
      cases h : lookupAssoc l k'
      · simp [lookupAssoc, hk]
      · simp

theorem upsertAssoc_keys_nodup {l : List (α × β)} (k : α) (v : β)
    (h : (l.map Prod.fst).Nodup) : ((upsertAssoc l k v).map Prod.fst).Nodup := by
  unfold upsertAssoc
  by_cases hs : (lookupAssoc l k).isSome
  · rw [if_pos hs]
    have : (l.map (fun p => if p.1 = k then (k, v) else p)).map Prod.fst = l.map Prod.fst := by
      rw [List.map_map]
      apply List.map_congr_left
      intro p _
      by_cases hp : p.1 = k <;> simp [hp]
    rw [this]
    exact h
  · rw [if_neg hs]
    have hnm : k ∉ l.map Prod.fst := by
      rw [← lookupAssoc_eq_none_iff]
      cases hh : lookupAssoc l k
      · rfl
      · rw [hh] at hs; simp at hs
    simp only [List.map_append, List.map_cons, List.map_nil]
    rw [List.nodup_append]
    refine ⟨h, List.nodup_singleton _, ?_⟩
    intro a ha hb
    simp at hb
    subst hb
    exact hnm ha

theorem lookupAssoc_reverse_of_nodup {l : List (α × β)} (k : α)
    (h : (l.map Prod.fst).Nodup) : lookupAssoc l.reverse k = lookupAssoc l k := by
  induction l with
  | nil => rfl
  | cons p rest ih =>
    rw [List.map_cons, List.nodup_cons] at h
    have hrest : (rest.map Prod.fst).Nodup := h.2
    have hnotin : p.1 ∉ rest.map Prod.fst := h.1
    rw [List.reverse_cons, lookupAssoc_append, ih hrest]
    by_cases hp : p.1 = k
    · subst hp
      have hln : lookupAssoc rest p.1 = none := (lookupAssoc_eq_none_iff rest p.1).mpr hnotin
      simp [hln, lookupAssoc]
    · cases hh : lookupAssoc rest k
      · simp [lookupAssoc, hp, hh]
      · simp [lookupAssoc, hp, hh]

end AssocLemmas

/-- Claim C1 (code_bug evaluation).  A bin holding two messages at
timestamps 1 and 2, in non-decreasing order, goes through one cleanup
tick with now = 15 and retention = 10, so every message timestamp is at
or before the cutoff 5; the claim requires the bin to become empty, but
the source's index search leaves idx = 0 and removes nothing. -/
theorem c1_cleanup_tick_keeps_fully_expired_bin :
    (∀ m ∈ [Message.mk 0x1000 "m1" [1] 1, Message.mk 0x1000 "m2" [2] 2], m.Timestamp ≤ 15 - 10) ∧
    (lookupAssoc (BinManager.cleanup
        { bins := [(0x1000,
            { ID := 0x1000,
              Messages := [Message.mk 0x1000 "m1" [1] 1, Message.mk 0x1000 "m2" [2] 2],
              Clients := [] })],
          currentMask := 0xFFFFFFFFFFFFF000, retention := 10 } 15).bins 0x1000).map Bin.Messages
      = some [Message.mk 0x1000 "m1" [1] 1, Message.mk 0x1000 "m2" [2] 2] := by
  constructor
  · decide
  · decide

/-- Claim C2 (code_bug evaluation).  A message admitted by AddMessage at
time 5 carries a non-zero timestamp, and the wire form the server then
writes for it (replay of GetRecentMessages, and likewise fan-out) keeps a
"timestamp" field, although the claim requires the wire form never to
contain one. -/
theorem c2_marshal_emits_timestamp_for_admitted_message :
    ((BinManager.AddMessage
        { bins := [], currentMask := 0xFFFFFFFFFFFFF000, retention := 10 }
        (Message.mk 0x1000 "m1" [7] 0) (fun _ _ => true) 5).GetRecentMessages 0x1000 6).map
      (fun m => m.marshalJSONFields.map Prod.fst)
      = [["bin_id", "message_id", "ciphertext", "timestamp"]] := by
  decide

/-- Claim C3 (code_bug evaluation).  Certificate "B" is registered with
referrer "A", so a revocation request for target "B" from the client
holding "A" must succeed per the claim; the handler instead inspects the
requester's own referrer extension (absent on "A") and rejects the
request as Unauthorized, leaving the revocation state unchanged. -/
theorem c3_referrer_revocation_request_rejected :
    childrenOf (NewRevocationManager.RegisterCertificate "B" "A").referrerMapping "A" = ["B"] ∧
    handleCertificateRevoke (NewRevocationManager.RegisterCertificate "B" "A")
        { serial := "A", referrerExt := none } "B" false 7 8
      = Except.error "Unauthorized to revoke this certificate" ∧
    (NewRevocationManager.RegisterCertificate "B" "A").IsRevoked "B" = false := by
  refine ⟨by decide, by rfl, by decide⟩

/-- Claim C6 (counterexample).  From mask 0xFFFFFFFFFFFFF000 the expand
loop finds bit 0 unset and sets it, yielding 0xFFFFFFFFFFFFF001, not the
0xFFFFFFFFFFFFF800 stated by the claim. -/
theorem c6_counterexample :
    (BinManager.ExpandBins
        { bins := [], currentMask := 0xFFFFFFFFFFFFF000, retention := 10 }).currentMask
      = 0xFFFFFFFFFFFFF001 ∧ (0xFFFFFFFFFFFFF001 : Nat) ≠ 0xFFFFFFFFFFFFF800 := by
  refine ⟨by decide, by decide⟩

/-- Claim C7 (counterexample).  A manager whose single bin has ID 1 under
mask 3 satisfies the invariant on the stored Bin ID field; contraction
rekeys the bin to 0 under the new mask 2 but leaves the Bin's ID field at
1, and 1 &&& 2 is not 1, so the invariant read on the Bin's own ID field
fails after the operation. -/
theorem c7_counterexample :
    (∀ p ∈ ({ bins := [(1, NewBin 1)], currentMask := 3, retention := 10 } : BinManager).bins,
        p.2.ID &&& (3 : Nat) = p.2.ID) ∧
    ¬ (∀ p ∈ (BinManager.ContractBins
          { bins := [(1, NewBin 1)], currentMask := 3, retention := 10 }).bins,
        p.2.ID &&& (BinManager.ContractBins
          { bins := [(1, NewBin 1)], currentMask := 3, retention := 10 }).currentMask = p.2.ID) := by
  refine ⟨by decide, by decide⟩

theorem AddMessage_bins_lookup (bm : BinManager) (p : Message)
    (sendOK : Client → Message → Bool) (now : Int) :
    ∃ b, lookupAssoc (bm.AddMessage p sendOK now).bins p.BinID = some b ∧
      b.Messages =
        (match lookupAssoc bm.bins p.BinID with
         | some ob => ob.Messages
         | none => []) ++ [{ p with Timestamp := now }] := by
  cases hlk : lookupAssoc bm.bins p.BinID with
  | none =>
    refine ⟨((NewBin p.BinID).AddMessage { p with Timestamp := now }).BroadcastMessage sendOK
      { p with Timestamp := now }, ?_, ?_⟩
    · simp only [BinManager.AddMessage, hlk]
      rw [lookupAssoc_append, hlk]
      simp [lookupAssoc]
    · simp [NewBin, Bin.AddMessage, Bin.BroadcastMessage, hlk]
  | some ob =>
    refine ⟨(ob.AddMessage { p with Timestamp := now }).BroadcastMessage sendOK
      { p with Timestamp := now }, ?_, ?_⟩
    · simp only [BinManager.AddMessage, hlk]
      exact lookupAssoc_update_self _ hlk
    · simp [Bin.AddMessage, Bin.BroadcastMessage, hlk]

theorem AddMessage_retention (bm : BinManager) (p : Message)
    (sendOK : Client → Message → Bool) (now : Int) :
    (bm.AddMessage p sendOK now).retention = bm.retention := by
  cases hlk : lookupAssoc bm.bins p.BinID <;> simp [BinManager.AddMessage, hlk]

theorem AddMessage_currentMask (bm : BinManager) (p : Message)
    (sendOK : Client → Message → Bool) (now : Int) :
    (bm.AddMessage p sendOK now).currentMask = bm.currentMask := by
  cases hlk : lookupAssoc bm.bins p.BinID <;> simp [BinManager.AddMessage, hlk]

/-- Claim C4.  After a publish, a recent-messages query on the published
bin ID returns a message carrying the published message ID, provided the
admission time is inside the retention window at query time; the bin is
created lazily when absent, so this holds for every starting state. -/
theorem c4_publish_then_recent_contains_message (bm : BinManager) (p : Message)
    (sendOK : Client → Message → Bool) (addNow queryNow : Int)
    (h : queryNow - bm.retention < addNow) :
    ∃ m ∈ (bm.AddMessage p sendOK addNow).GetRecentMessages p.BinID queryNow,
      m.MessageID = p.MessageID ∧ m.Timestamp = addNow := by
  obtain ⟨b, hb, hmsg⟩ := AddMessage_bins_lookup bm p sendOK addNow
  refine ⟨{ p with Timestamp := addNow }, ?_, rfl, rfl⟩
  simp only [BinManager.GetRecentMessages, hb, Bin.GetRecentMessages]
  apply List.mem_filter.mpr
  constructor
  · rw [hmsg]
    exact List.mem_append.mpr (Or.inr (List.mem_singleton.mpr rfl))
  · rw [AddMessage_retention]
    simpa using h

/-- Claim C4 witness: publish into an empty manager at time 5 and query
at time 6 with retention 10. -/
theorem c4_witness :
    ((6 : Int) - (10 : Int) < 5) ∧
    ∃ m ∈ (BinManager.AddMessage
        { bins := [], currentMask := 0xFFFFFFFFFFFFF000, retention := 10 }
        (Message.mk 0x1000 "m1" [7] 0) (fun _ _ => true) 5).GetRecentMessages 0x1000 6,
      m.MessageID = (Message.mk 0x1000 "m1" [7] 0).MessageID ∧ m.Timestamp = 5 :=
  ⟨by decide,
   c4_publish_then_recent_contains_message
     { bins := [], currentMask := 0xFFFFFFFFFFFFF000, retention := 10 }
     (Message.mk 0x1000 "m1" [7] 0) (fun _ _ => true) 5 6 (by decide)⟩

/-- Claim C10.  AddMessage stores and routes under the message's BinID
exactly as supplied, without masking; when that BinID is not fixed by the
current mask, the resulting table holds a bin whose key violates the
mask-consistency invariant. -/
theorem c10_publish_uses_unmasked_bin_id (bm : BinManager) (p : Message)
    (sendOK : Client → Message → Bool) (now : Int) :
    (∃ b, lookupAssoc (bm.AddMessage p sendOK now).bins p.BinID = some b ∧
       { p with Timestamp := now } ∈ b.Messages) ∧
    (p.BinID &&& bm.currentMask ≠ p.BinID →
       ∃ q ∈ (bm.AddMessage p sendOK now).bins,
         q.1 &&& (bm.AddMessage p sendOK now).currentMask ≠ q.1) := by
  obtain ⟨b, hb, hmsg⟩ := AddMessage_bins_lookup bm p sendOK now
  constructor
  · refine ⟨b, hb, ?_⟩
    rw [hmsg]
    exact List.mem_append.mpr (Or.inr (List.mem_singleton.mpr rfl))
  · intro hmask
    refine ⟨(p.BinID, b), lookupAssoc_mem hb, ?_⟩
    rw [AddMessage_currentMask]
    exact hmask

/-- Claim C10 witness: BinID 4 is not fixed by mask 3, and publishing it
creates a bin table entry whose key violates the invariant. -/
theorem c10_witness :
    ∃ q ∈ (BinManager.AddMessage { bins := [], currentMask := 3, retention := 10 }
        (Message.mk 4 "m1" [7] 0) (fun _ _ => true) 5).bins,
      q.1 &&& (BinManager.AddMessage { bins := [], currentMask := 3, retention := 10 }
        (Message.mk 4 "m1" [7] 0) (fun _ _ => true) 5).currentMask ≠ q.1 :=
  (c10_publish_uses_unmasked_bin_id { bins := [], currentMask := 3, retention := 10 }
    (Message.mk 4 "m1" [7] 0) (fun _ _ => true) 5).2 (by decide)

theorem findBitAux_eq_two_pow {p : Nat → Bool} (fuel : Nat) :
    ∀ i j : Nat, i ≤ j → j ≤ i + fuel → p j = true →
      (∀ l, i ≤ l → l < j → p l = false) → findBitAux p i fuel = 2 ^ j := by
  induction fuel with
  | zero =>
    intro i j h1 h2 h3 _
    have hij : j = i := le_antisymm (by simpa using h2) h1
    subst hij
    simp [findBitAux, h3]
  | succ fuel ih =>
    intro i j h1 h2 h3 h4
    by_cases hpi : p i = true
    · have hij : j = i := by
        by_contra hne
        have hlt : i < j := lt_of_le_of_ne h1 (Ne.symm hne)
        have := h4 i le_rfl hlt
        rw [hpi] at this
        exact absurd this (by simp)
      subst hij
      simp [findBitAux, hpi]
    · have hpi' : p i = false := by simpa using hpi
      have hij : i < j := by
        rcases lt_or_eq_of_le h1 with h | h
        · exact h
        · subst h; rw [h3] at hpi'; exact absurd hpi' (by simp)
      rw [findBitAux, hpi']
      simp only [Bool.false_eq_true, if_false]
      exact ih (i + 1) j hij (by omega) h3 (fun l hl1 hl2 => h4 l (by omega) hl2)

theorem findBitAux_eq_zero {p : Nat → Bool} (fuel : Nat) :
    ∀ i, (∀ l, i ≤ l → l ≤ i + fuel → p l = false) → findBitAux p i fuel = 0 := by
  induction fuel with
  | zero =>
    intro i h
    simp [findBitAux, h i le_rfl (by omega)]
  | succ fuel ih =>
    intro i h
    rw [findBitAux, h i le_rfl (by omega)]
    simp only [Bool.false_eq_true, if_false]
    exact ih (i + 1) (fun l hl1 hl2 => h l (by omega) (by omega))

theorem and_two_pow_eq (mask i : Nat) :
    mask &&& 2 ^ i = if mask.testBit i then 2 ^ i else 0 := by
  rw [Nat.and_two_pow]
  cases h : mask.testBit i <;> simp [h]

theorem findLowestSetBit_spec {mask : Nat} (h0 : mask ≠ 0) (h64 : mask < 2 ^ 64) :
    ∃ i, i < 64 ∧ mask.testBit i = true ∧ (∀ j, j < i → mask.testBit j = false) ∧
      findLowestSetBit mask = 2 ^ i := by
  have hex : ∃ i, mask.testBit i = true := Nat.ne_zero_implies_bit_true h0
  have hti : mask.testBit (Nat.find hex) = true := Nat.find_spec hex
  have hmin : ∀ j, j < Nat.find hex → mask.testBit j = false := by
    intro j hj
    simpa using Nat.find_min hex hj
  have hi64 : Nat.find hex < 64 := by
    have hge := Nat.testBit_implies_ge hti
    by_contra hge64
    push_neg at hge64
    have : (2 : Nat) ^ 64 ≤ 2 ^ Nat.find hex := Nat.pow_le_pow_right (by norm_num) hge64
    omega
  refine ⟨Nat.find hex, hi64, hti, hmin, ?_⟩
  unfold findLowestSetBit
  apply findBitAux_eq_two_pow 63 0 (Nat.find hex) (Nat.zero_le _) (by omega)
  · simp [and_two_pow_eq, hti]
  · intro l _ hl
    simp [and_two_pow_eq, hmin l hl]

theorem findLowestSetBit_zero : findLowestSetBit 0 = 0 := by
  unfold findLowestSetBit
  apply findBitAux_eq_zero
  intro l _ _
  simp [Nat.zero_and]

theorem findLowestUnsetBit_spec {mask : Nat} (h64 : mask < 2 ^ 64) (hne : mask ≠ 2 ^ 64 - 1) :
    ∃ i, i < 64 ∧ mask.testBit i = false ∧ (∀ j, j < i → mask.testBit j = true) ∧
      findLowestUnsetBit mask = 2 ^ i := by
  have hex : ∃ i, mask.testBit i = false := by
    by_contra hall
    push_neg at hall
    apply hne
    apply Nat.eq_of_testBit_eq
    intro j
    rw [Nat.testBit_two_pow_sub_one]
    by_cases hj : j < 64
    · simpa [hj] using hall j
    · have hlt : mask < 2 ^ j :=
        lt_of_lt_of_le h64 (Nat.pow_le_pow_right (by norm_num) (by omega))
      simp [hj, Nat.testBit_eq_false_of_lt hlt]
  have hti : mask.testBit (Nat.find hex) = false := Nat.find_spec hex
  have hmin : ∀ j, j < Nat.find hex → mask.testBit j = true := by
    intro j hj
    simpa using Nat.find_min hex hj
  have hi64 : Nat.find hex < 64 := by
    by_contra h64'
    push_neg at h64'
    apply hne
    apply Nat.eq_of_testBit_eq
    intro j
    rw [Nat.testBit_two_pow_sub_one]
    by_cases hj : j < 64
    · simp [hj, hmin j (lt_of_lt_of_le hj h64')]
    · have hlt : mask < 2 ^ j :=
        lt_of_lt_of_le h64 (Nat.pow_le_pow_right (by norm_num) (by omega))
      simp [hj, Nat.testBit_eq_false_of_lt hlt]
  refine ⟨Nat.find hex, hi64, hti, hmin, ?_⟩
  unfold findLowestUnsetBit
  apply findBitAux_eq_two_pow 63 0 (Nat.find hex) (Nat.zero_le _) (by omega)
  · simp [and_two_pow_eq, hti]
  · intro l _ hl
    simp [and_two_pow_eq, hmin l hl]

theorem findLowestUnsetBit_allset : findLowestUnsetBit 18446744073709551615 = 0 := by
  unfold findLowestUnsetBit
  apply findBitAux_eq_zero
  intro l hl0 hl63
  have hlit : (18446744073709551615 : Nat) = 2 ^ 64 - 1 := by norm_num
  rw [hlit, and_two_pow_eq, Nat.testBit_two_pow_sub_one]
  simp [(by omega : l < 64)]

/-- Claim C6, amended on its concrete example.  ExpandBins is a no-op
when every one of the 64 mask bits is set; otherwise it sets the
lowest-order unset bit and changes nothing else; in particular expanding
from mask 0xFFFFFFFFFFFFF000 sets bit 0 and yields 0xFFFFFFFFFFFFF001. -/
theorem c6_expand_sets_lowest_unset_bit (bm : BinManager) (h64 : bm.currentMask < 2 ^ 64) :
    (bm.currentMask = 2 ^ 64 - 1 → bm.ExpandBins = bm) ∧
    (bm.currentMask ≠ 2 ^ 64 - 1 →
      ∃ i, i < 64 ∧ bm.currentMask.testBit i = false ∧
        (∀ j, j < i → bm.currentMask.testBit j = true) ∧
        bm.ExpandBins = { bm with currentMask := bm.currentMask ||| 2 ^ i }) ∧
    (bm.currentMask = 0xFFFFFFFFFFFFF000 → bm.ExpandBins.currentMask = 0xFFFFFFFFFFFFF001) := by
  refine ⟨?_, ?_, ?_⟩
  · intro hall
    simp [BinManager.ExpandBins, hall, findLowestUnsetBit_allset]
  · intro hne
    obtain ⟨i, hi64, hti, hmin, hfind⟩ := findLowestUnsetBit_spec h64 hne
    refine ⟨i, hi64, hti, hmin, ?_⟩
    have hpz : (2 : Nat) ^ i ≠ 0 := Nat.pos_iff_ne_zero.mp (Nat.pos_pow_of_pos i (by norm_num))
    simp [BinManager.ExpandBins, hfind, hpz]
  · intro hmask
    have h1 : findLowestUnsetBit 0xFFFFFFFFFFFFF000 = 1 := by decide
    simp only [BinManager.ExpandBins, hmask, h1]
    norm_num
    decide

/-- Claim C6 witness: the amended concrete example, by applying the
theorem at mask 0xFFFFFFFFFFFFF000. -/
theorem c6_witness :
    (BinManager.ExpandBins
        { bins := [], currentMask := 0xFFFFFFFFFFFFF000, retention := 10 }).currentMask
      = 0xFFFFFFFFFFFFF001 :=
  (c6_expand_sets_lowest_unset_bit
      { bins := [], currentMask := 0xFFFFFFFFFFFFF000, retention := 10 }
      (by decide)).2.2 (by decide)

theorem and_absorb_or {k mask b : Nat} (h : k &&& mask = k) : k &&& (mask ||| b) = k := by
  apply Nat.eq_of_testBit_eq
  intro i
  have hh := congrArg (fun x => Nat.testBit x i) h
  simp only [Nat.testBit_land, Nat.testBit_lor] at *
  cases hk : k.testBit i <;> cases hm : mask.testBit i <;> simp_all

theorem and_mask_idem (x m : Nat) : (x &&& m) &&& m = x &&& m := by
  apply Nat.eq_of_testBit_eq
  intro i
  simp [Nat.testBit_land, Bool.and_assoc]

theorem contract_fold_keys (newMask : Nat) (l : List (Nat × Bin)) :
    ∀ acc, (∀ q ∈ acc, q.1 &&& newMask = q.1) →
      ∀ q ∈ l.foldl (contractStep newMask) acc, q.1 &&& newMask = q.1 := by
  induction l with
  | nil =>
    intro acc hacc
    simpa using hacc
  | cons p rest ih =>
    intro acc hacc
    rw [List.foldl_cons]
    apply ih
    intro q hq
    simp only [contractStep] at hq
    cases hlk : lookupAssoc acc (p.1 &&& newMask) with
    | some eb =>
      rw [hlk] at hq
      have hkeys : q.1 ∈ acc.map Prod.fst := by
        have hm : q.1 ∈ (updateAssoc acc (p.1 &&& newMask)
            (fun _ => eb.mergeFrom p.2)).map Prod.fst := List.mem_map_of_mem _ hq
        rwa [updateAssoc_keys] at hm
      obtain ⟨q', hq', hq'1⟩ := List.mem_map.mp hkeys
      rw [← hq'1]
      exact hacc q' hq'
    | none =>
      rw [hlk] at hq
      rcases List.mem_append.mp hq with h1 | h2
      · exact hacc q h1
      · rw [List.mem_singleton.mp h2]
        exact and_mask_idem p.1 newMask

/-- Claim C7, amended: the invariant is preserved on the keys of the bin
table (the ID under which each bin is stored and addressed); the stale ID
field kept inside a rekeyed Bin value is exempted, per the
counterexample. -/
theorem c7_mask_consistency_on_table_keys (bm : BinManager)
    (hpre : ∀ q ∈ bm.bins, q.1 &&& bm.currentMask = q.1) :
    (∀ q ∈ bm.ExpandBins.bins, q.1 &&& bm.ExpandBins.currentMask = q.1) ∧
    (∀ q ∈ bm.ContractBins.bins, q.1 &&& bm.ContractBins.currentMask = q.1) := by
  constructor
  · unfold BinManager.ExpandBins
    by_cases hz : findLowestUnsetBit bm.currentMask = 0
    · simpa [hz] using hpre
    · simp only [hz, if_false]
      intro q hq
      exact and_absorb_or (hpre q hq)
  · unfold BinManager.ContractBins
    by_cases hg : findLowestSetBit bm.currentMask = 0 ∨
        bm.currentMask = findLowestSetBit bm.currentMask
    · simpa [hg] using hpre
    · simp only [hg, if_false]
      exact contract_fold_keys _ _ [] (by simp)

/-- Claim C7 witness: a mask-consistent table stays key-consistent after
one expand and after one contract. -/
theorem c7_witness :
    (∀ q ∈ (BinManager.ExpandBins
        { bins := [(0x1000, NewBin 0x1000)], currentMask := 0xF000, retention := 10 }).bins,
      q.1 &&& (BinManager.ExpandBins
        { bins := [(0x1000, NewBin 0x1000)], currentMask := 0xF000, retention := 10 }).currentMask = q.1) ∧
    (∀ q ∈ (BinManager.ContractBins
        { bins := [(0x1000, NewBin 0x1000)], currentMask := 0xF000, retention := 10 }).bins,
      q.1 &&& (BinManager.ContractBins
        { bins := [(0x1000, NewBin 0x1000)], currentMask := 0xF000, retention := 10 }).currentMask = q.1) :=
  c7_mask_consistency_on_table_keys
    { bins := [(0x1000, NewBin 0x1000)], currentMask := 0xF000, retention := 10 }
    (by decide)

theorem revokeRec_mem (m : List (String × List String)) (now : Int) :
    ∀ (fuel : Nat) (id : String) (rev : List (String × Int)) (x : String),
      (lookupAssoc (revokeRec m now fuel id rev) x).isSome = true ↔
        (x ∈ reachList m fuel id ∨ (lookupAssoc rev x).isSome = true) := by
  intro fuel
  induction fuel with
  | zero =>
    intro id rev x
    simp [revokeRec, reachList]
  | succ fuel ih =>
    intro id rev x
    rw [revokeRec]
    have hfold : ∀ (cs : List String) (racc : List (String × Int)),
        (lookupAssoc (cs.foldl (fun r c => revokeRec m now fuel c r) racc) x).isSome = true ↔
          ((∃ c ∈ cs, x ∈ reachList m fuel c) ∨ (lookupAssoc racc x).isSome = true) := by
      intro cs
      induction cs with
      | nil =>
        intro racc
        simp
      | cons c rest ihc =>
        intro racc
        rw [List.foldl_cons, ihc (revokeRec m now fuel c racc), ih c racc x]
        constructor
        · rintro (⟨c', hc', hx⟩ | (hx | hx))
          · exact Or.inl ⟨c', List.mem_cons_of_mem _ hc', hx⟩
          · exact Or.inl ⟨c, List.mem_cons_self _ _, hx⟩
          · exact Or.inr hx
        · rintro (⟨c', hc', hx⟩ | hx)
          · rcases List.mem_cons.mp hc' with h | h
            · subst h
              exact Or.inr (Or.inl hx)
            · exact Or.inl ⟨c', h, hx⟩
          · exact Or.inr (Or.inr hx)
    rw [hfold]
    have hup : (lookupAssoc (upsertAssoc rev id now) x).isSome = true ↔
        (id = x ∨ (lookupAssoc rev x).isSome = true) := by
      rw [lookupAssoc_upsert]
      by_cases h : id = x <;> simp [h]
    rw [hup, reachList]
    simp only [List.mem_cons, List.mem_flatMap]
    constructor
    · rintro (⟨c, hc, hx⟩ | (h | h))
      · exact Or.inl (Or.inr ⟨c, hc, hx⟩)
      · exact Or.inl (Or.inl h.symm)
      · exact Or.inr h
    · rintro ((h | ⟨c, hc, hx⟩) | h)
      · exact Or.inr (Or.inl h.symm)
      · exact Or.inl ⟨c, hc, hx⟩
      · exact Or.inr (Or.inr h)

theorem reachList_subset_Reaches (m : List (String × List String)) :
    ∀ (fuel : Nat) (id x : String), x ∈ reachList m fuel id → Reaches m id x := by
  intro fuel
  induction fuel with
  | zero =>
    intro id x hx
    simp [reachList] at hx
  | succ fuel ih =>
    intro id x hx
    rw [reachList] at hx
    rcases List.mem_cons.mp hx with h | h
    · subst h
      exact Relation.ReflTransGen.refl
    · obtain ⟨c, hc, hx'⟩ := List.mem_flatMap.mp h
      exact Relation.ReflTransGen.head (show childStep m id c from hc) (ih c x hx')

theorem Reaches_mem_reachList (m : List (String × List String)) (rank : String → Nat)
    (hrank : ∀ x y, childStep m x y → rank y < rank x) :
    ∀ (fuel : Nat) (id x : String), rank id < fuel → Reaches m id x →
      x ∈ reachList m fuel id := by
  intro fuel
  induction fuel with
  | zero =>
    intro id x h
    omega
  | succ fuel ih =>
    intro id x hrk hreach
    rcases Relation.ReflTransGen.cases_head hreach with h | ⟨c, hstep, hrest⟩
    · subst h
      rw [reachList]
      exact List.mem_cons_self _ _
    · rw [reachList]
      apply List.mem_cons_of_mem
      apply List.mem_flatMap.mpr
      refine ⟨c, hstep, ?_⟩
      have hlt := hrank id c hstep
      exact ih c x (by omega) hrest

/-- Claim C8.  On a referrer state whose tree admits a rank function
(which holds for every forest built by RegisterCertificate without
self-reference) and with enough fuel for the walk, RevokeWithChildren
marks revoked exactly the serials reachable from the root through the
children mapping, and every other serial keeps its prior status. -/
theorem c8_revoke_with_children_exactly_reachable (rm : RevocationManager)
    (rootID : String) (now : Int) (fuel : Nat) (rank : String → Nat)
    (hrank : ∀ x y, childStep rm.referrerMapping x y → rank y < rank x)
    (hfuel : rank rootID < fuel) (x : String) :
    (rm.RevokeWithChildren rootID now fuel).IsRevoked x = true ↔
      (Reaches rm.referrerMapping rootID x ∨ rm.IsRevoked x = true) := by
  unfold RevocationManager.RevokeWithChildren RevocationManager.IsRevoked
  rw [revokeRec_mem]
  constructor
  · rintro (h | h)
    · exact Or.inl (reachList_subset_Reaches _ _ _ _ h)
    · exact Or.inr h
  · rintro (h | h)
    · exact Or.inl (Reaches_mem_reachList _ rank hrank fuel rootID x hfuel h)
    · exact Or.inr h

/-- Claim C8 witness: the claim's concrete tree (root with children c1,
c2; c1 with children g1, g2), built through RegisterCertificate;
revoke_with_children(c1) revokes c1, g1, g2 and leaves root and c2
unrevoked. -/
theorem c8_witness :
    (((((NewRevocationManager.RegisterCertificate "c1" "root").RegisterCertificate
        "c2" "root").RegisterCertificate "g1" "c1").RegisterCertificate
        "g2" "c1").RevokeWithChildren "c1" 7 2).IsRevoked "c1" = true ∧
    (((((NewRevocationManager.RegisterCertificate "c1" "root").RegisterCertificate
        "c2" "root").RegisterCertificate "g1" "c1").RegisterCertificate
        "g2" "c1").RevokeWithChildren "c1" 7 2).IsRevoked "g1" = true ∧
    (((((NewRevocationManager.RegisterCertificate "c1" "root").RegisterCertificate
        "c2" "root").RegisterCertificate "g1" "c1").RegisterCertificate
        "g2" "c1").RevokeWithChildren "c1" 7 2).IsRevoked "g2" = true ∧
    (((((NewRevocationManager.RegisterCertificate "c1" "root").RegisterCertificate
        "c2" "root").RegisterCertificate "g1" "c1").RegisterCertificate
        "g2" "c1").RevokeWithChildren "c1" 7 2).IsRevoked "root" = false ∧
    (((((NewRevocationManager.RegisterCertificate "c1" "root").RegisterCertificate
        "c2" "root").RegisterCertificate "g1" "c1").RegisterCertificate
        "g2" "c1").RevokeWithChildren "c1" 7 2).IsRevoked "c2" = false := by
  have hmap : ((((NewRevocationManager.RegisterCertificate "c1" "root").RegisterCertificate
      "c2" "root").RegisterCertificate "g1" "c1").RegisterCertificate
      "g2" "c1").referrerMapping = [("root", ["c1", "c2"]), ("c1", ["g1", "g2"])] := by
    decide
  have hrank : ∀ x y, childStep ((((NewRevocationManager.RegisterCertificate "c1"
      "root").RegisterCertificate "c2" "root").RegisterCertificate "g1"
      "c1").RegisterCertificate "g2" "c1").referrerMapping x y →
      (if y = "root" then 2 else if y = "c1" then 1 else 0 : Nat) <
      (if x = "root" then 2 else if x = "c1" then 1 else 0 : Nat) := by
    intro x y h
    unfold childStep at h
    rw [hmap] at h
    by_cases hx1 : x = "root"
    · have hroot : childrenOf [("root", ["c1", "c2"]), ("c1", ["g1", "g2"])] "root"
          = ["c1", "c2"] := by decide
      rw [hx1, hroot] at h
      rcases List.mem_cons.mp h with hy | hy
      · subst hy; subst hx1; decide
      · rw [List.mem_singleton.mp hy]; subst hx1; decide
    · by_cases hx2 : x = "c1"
      · have hc1 : childrenOf [("root", ["c1", "c2"]), ("c1", ["g1", "g2"])] "c1"
            = ["g1", "g2"] := by decide
        rw [hx2, hc1] at h
        rcases List.mem_cons.mp h with hy | hy
        · subst hy; subst hx2; simp [hx1]
        · rw [List.mem_singleton.mp hy]; subst hx2; simp [hx1]
      · have h1 : ("root" : String) ≠ x := fun hh => hx1 hh.symm
        have h2 : ("c1" : String) ≠ x := fun hh => hx2 hh.symm
        simp [childrenOf, lookupAssoc, h1, h2] at h
  refine ⟨?_, ?_, ?_, by decide, by decide⟩
  · exact (c8_revoke_with_children_exactly_reachable _ "c1" 7 2
      (fun s => if s = "root" then 2 else if s = "c1" then 1 else 0) hrank (by decide) "c1").mpr
      (Or.inl Relation.ReflTransGen.refl)
  · exact (c8_revoke_with_children_exactly_reachable _ "c1" 7 2
      (fun s => if s = "root" then 2 else if s = "c1" then 1 else 0) hrank (by decide) "g1").mpr
      (Or.inl (Relation.ReflTransGen.single (by rw [childStep, hmap]; decide)))
  · exact (c8_revoke_with_children_exactly_reachable _ "c1" 7 2
      (fun s => if s = "root" then 2 else if s = "c1" then 1 else 0) hrank (by decide) "g2").mpr
      (Or.inl (Relation.ReflTransGen.single (by rw [childStep, hmap]; decide)))

theorem ctrXor_ctrXor (ks : Nat → Nat) : ∀ (i : Nat) (l : List Nat),
    ctrXor ks i (ctrXor ks i l) = l := by
  intro i l
  induction l generalizing i with
  | nil => rfl
  | cons b rest ih => simp [ctrXor, Nat.xor_cancel_right, ih]

theorem ctrXor_length (ks : Nat → Nat) : ∀ (i : Nat) (l : List Nat),
    (ctrXor ks i l).length = l.length := by
  intro i l
  induction l generalizing i with
  | nil => rfl
  | cons b rest ih => simp [ctrXor, ih]

theorem AESGCMDecrypt_of_seal (P : CryptoPrims) (key nonce : List Nat) (d : List Nat)
    (hk : aesKeyLengthOK key = true) (hn : nonce.length = 12) :
    AESGCMDecrypt P
      (ctrXor (P.keystream key nonce) 0 d ++
        P.tag key nonce (ctrXor (P.keystream key nonce) 0 d)) key nonce = Except.ok d := by
  set ct := ctrXor (P.keystream key nonce) 0 d with hct
  set tg := P.tag key nonce ct with htg
  have hctl : ct.length = d.length := ctrXor_length _ _ _
  have htl : tg.length = 16 := P.tag_length _ _ _
  have hlen : (ct ++ tg).length = d.length + 16 := by simp [hctl, htl]
  have hnlt : ¬ ((ct ++ tg).length < 16) := by omega
  have hsub : (ct ++ tg).length - 16 = ct.length := by omega
  rw [AESGCMDecrypt, if_pos hk, if_pos hn, if_neg hnlt, hsub, List.take_left, List.drop_left,
    if_pos rfl, hct, ctrXor_ctrXor]

/-- Claim C9.  For every plaintext and every key pair with a 32-byte
encryption key and a 32-byte HMAC key, VerifyAndDecrypt inverts
EncryptAndAuthenticate on the produced (ciphertext, nonce, mac) triple,
for every choice of deterministic primitives and random source. -/
theorem c9_encrypt_then_decrypt_roundtrip (P : CryptoPrims) (d : List Nat) (kp : KeyPair)
    (rnd : Nat → Nat) (henc : kp.EncryptionKey.length = 32) (hmk : kp.HMACKey.length = 32) :
    ∃ ct nonce mac, EncryptAndAuthenticate P d kp rnd = Except.ok (ct, nonce, mac) ∧
      VerifyAndDecrypt P ct nonce mac kp = Except.ok d := by
  have hkeyok : aesKeyLengthOK kp.EncryptionKey = true := by
    simp [aesKeyLengthOK, henc]
  have hnl : ((List.range 12).map rnd).length = 12 := by simp
  refine ⟨ctrXor (P.keystream kp.EncryptionKey ((List.range 12).map rnd)) 0 d ++
      P.tag kp.EncryptionKey ((List.range 12).map rnd)
        (ctrXor (P.keystream kp.EncryptionKey ((List.range 12).map rnd)) 0 d),
    (List.range 12).map rnd,
    P.hmacSHA256 kp.HMACKey
      ((ctrXor (P.keystream kp.EncryptionKey ((List.range 12).map rnd)) 0 d ++
        P.tag kp.EncryptionKey ((List.range 12).map rnd)
          (ctrXor (P.keystream kp.EncryptionKey ((List.range 12).map rnd)) 0 d)) ++
        (List.range 12).map rnd), ?_, ?_⟩
  · simp [EncryptAndAuthenticate, AESGCMEncrypt, hkeyok]
  · rw [VerifyAndDecrypt]
    simp only [if_pos rfl]
    exact AESGCMDecrypt_of_seal P kp.EncryptionKey ((List.range 12).map rnd) d hkeyok hnl

/-- Claim C9 witness: a concrete roundtrip with 32-byte keys on the
plaintext [1, 2, 3]. -/
theorem c9_witness :
    (List.replicate 32 0).length = 32 ∧
    ∃ ct nonce mac,
      EncryptAndAuthenticate testPrims [1, 2, 3]
        ⟨List.replicate 32 0, List.replicate 32 0⟩ (fun _ => 7) = Except.ok (ct, nonce, mac) ∧
      VerifyAndDecrypt testPrims ct nonce mac
        ⟨List.replicate 32 0, List.replicate 32 0⟩ = Except.ok [1, 2, 3] :=
  ⟨by decide,
   c9_encrypt_then_decrypt_roundtrip testPrims [1, 2, 3]
     ⟨List.replicate 32 0, List.replicate 32 0⟩ (fun _ => 7) (by decide) (by decide)⟩

theorem mergeGroup_eq_none {g : List Bin} : mergeGroup g = none ↔ g = [] := by
  cases g <;> simp [mergeGroup]

theorem contract_fold_lookup (newMask : Nat) (l : List (Nat × Bin)) :
    ∀ (acc processed : List (Nat × Bin)),
      (∀ k, lookupAssoc acc k =
        mergeGroup ((processed.filter (fun q => q.1 &&& newMask == k)).map Prod.snd)) →
      ∀ k, lookupAssoc (l.foldl (contractStep newMask) acc) k =
        mergeGroup (((processed ++ l).filter (fun q => q.1 &&& newMask == k)).map Prod.snd) := by
  induction l with
  | nil =>
    intro acc processed hacc k
    simpa using hacc k
  | cons p rest ih =>
    intro acc processed hacc k
    rw [List.foldl_cons]
    have hstep : ∀ k', lookupAssoc (contractStep newMask acc p) k' =
        mergeGroup (((processed ++ [p]).filter (fun q => q.1 &&& newMask == k')).map Prod.snd) := by
      intro k'
      rw [List.filter_append, List.map_append]
      by_cases hk : p.1 &&& newMask = k'
      · subst hk
        have hfp : List.filter (fun q => q.1 &&& newMask == p.1 &&& newMask) [p] = [p] := by
          simp
        rw [hfp]
        cases hlk : lookupAssoc acc (p.1 &&& newMask) with
        | some eb =>
          have heb := hacc (p.1 &&& newMask)
          rw [hlk] at heb
          rcases hg : (processed.filter
              (fun q => q.1 &&& newMask == p.1 &&& newMask)).map Prod.snd with _ | ⟨b, bs⟩
          · rw [hg] at heb
            simp [mergeGroup] at heb
          · rw [hg] at heb
            simp only [mergeGroup, Option.some.injEq] at heb
            simp only [contractStep, hlk]
            rw [lookupAssoc_update_self _ hlk, hg]
            simp only [List.cons_append, mergeGroup, Option.some.injEq]
            rw [List.foldl_append]
            simp [heb]
        | none =>
          have heb := hacc (p.1 &&& newMask)
          rw [hlk] at heb
          have hgnil : (processed.filter
              (fun q => q.1 &&& newMask == p.1 &&& newMask)).map Prod.snd = [] :=
            mergeGroup_eq_none.mp heb.symm
          rw [hgnil]
          simp only [contractStep, hlk]
          rw [lookupAssoc_append, hlk]
          simp [lookupAssoc, mergeGroup]
      · have hfp : List.filter (fun q => q.1 &&& newMask == k') [p] = [] := by
          simp [hk]
        rw [hfp]
        simp only [List.map_nil, List.append_nil]
        rw [← hacc k']
        simp only [contractStep]
        cases hlk : lookupAssoc acc (p.1 &&& newMask) with
        | some eb =>
          exact lookupAssoc_update_ne _ (fun hh => hk hh.symm)
        | none =>
          rw [lookupAssoc_append]
          cases hacck : lookupAssoc acc k' with
          | some v => simp
          | none => simp [lookupAssoc, hk]
    have hres := ih (contractStep newMask acc p) (processed ++ [p]) hstep k
    rwa [List.append_assoc, List.singleton_append] at hres

theorem foldl_mergeFrom_Messages : ∀ (bs : List Bin) (b : Bin),
    (bs.foldl Bin.mergeFrom b).Messages = b.Messages ++ bs.flatMap Bin.Messages := by
  intro bs
  induction bs with
  | nil =>
    intro b
    simp
  | cons o rest ih =>
    intro b
    rw [List.foldl_cons, ih]
    simp [Bin.mergeFrom, List.flatMap_cons, List.append_assoc]

theorem foldl_upsert_lookup {α β : Type} [DecidableEq α] :
    ∀ (l acc : List (α × β)) (k : α),
      lookupAssoc (l.foldl (fun a p => upsertAssoc a p.1 p.2) acc) k =
        match lookupAssoc l.reverse k with
        | some v => some v
        | none => lookupAssoc acc k := by
  intro l
  induction l with
  | nil =>
    intro acc k
    simp [lookupAssoc]
  | cons p rest ih =>
    intro acc k
    rw [List.foldl_cons, ih, List.reverse_cons, lookupAssoc_append]
    cases hh : lookupAssoc rest.reverse k with
    | some v => simp
    | none =>
      rw [lookupAssoc_upsert]
      by_cases hp : p.1 = k <;> simp [lookupAssoc, hp]

theorem foldl_upsert_nodup {α β : Type} [DecidableEq α] :
    ∀ (l acc : List (α × β)), (acc.map Prod.fst).Nodup →
      ((l.foldl (fun a p => upsertAssoc a p.1 p.2) acc).map Prod.fst).Nodup := by
  intro l
  induction l with
  | nil =>
    intro acc h
    simpa using h
  | cons p rest ih =>
    intro acc h
    rw [List.foldl_cons]
    exact ih _ (upsertAssoc_keys_nodup _ _ h)

theorem lookupAssoc_mergeFrom (b o : Bin) (hnd : (o.Clients.map Prod.fst).Nodup) (cid : String) :
    lookupAssoc (b.mergeFrom o).Clients cid =
      match lookupAssoc o.Clients cid with
      | some c => some c
      | none => lookupAssoc b.Clients cid := by
  show lookupAssoc (o.Clients.foldl (fun a p => upsertAssoc a p.1 p.2) b.Clients) cid = _
  rw [foldl_upsert_lookup, lookupAssoc_reverse_of_nodup cid hnd]
  cases lookupAssoc o.Clients cid <;> rfl

theorem mergeFrom_clients_keys_nodup (b o : Bin)
    (hb : (b.Clients.map Prod.fst).Nodup) :
    ((b.mergeFrom o).Clients.map Prod.fst).Nodup := by
  show ((o.Clients.foldl (fun a p => upsertAssoc a p.1 p.2) b.Clients).map Prod.fst).Nodup
  exact foldl_upsert_nodup _ _ hb

theorem unionLookup_cons (b : Bin) (bs : List Bin) (cid : String) :
    unionLookup (b :: bs) cid =
      bs.foldl (fun acc bb =>
        match lookupAssoc bb.Clients cid with
        | some c => some c
        | none => acc) (lookupAssoc b.Clients cid) := by
  simp only [unionLookup, List.foldl_cons]
  congr 1
  cases lookupAssoc b.Clients cid <;> rfl

theorem foldl_mergeFrom_lookupClient : ∀ (bs : List Bin) (b : Bin),
    (b.Clients.map Prod.fst).Nodup → (∀ o ∈ bs, (o.Clients.map Prod.fst).Nodup) →
    ∀ cid, lookupAssoc (bs.foldl Bin.mergeFrom b).Clients cid = unionLookup (b :: bs) cid := by
  intro bs
  induction bs with
  | nil =>
    intro b hb _ cid
    rw [List.foldl_nil, unionLookup_cons, List.foldl_nil]
  | cons o rest ih =>
    intro b hb ho cid
    rw [List.foldl_cons,
      ih (b.mergeFrom o) (mergeFrom_clients_keys_nodup b o hb)
        (fun x hx => ho x (List.mem_cons_of_mem _ hx)) cid,
      unionLookup_cons, unionLookup_cons, List.foldl_cons]
    congr 1
    rw [lookupAssoc_mergeFrom b o (ho o (List.mem_cons_self _ _)) cid]

theorem findLowestSetBit_two_pow {i : Nat} (hi : i < 64) : findLowestSetBit (2 ^ i) = 2 ^ i := by
  have h0 : (2 : Nat) ^ i ≠ 0 := Nat.pos_iff_ne_zero.mp (Nat.pos_pow_of_pos i (by norm_num))
  have h64 : (2 : Nat) ^ i < 2 ^ 64 := Nat.pow_lt_pow_right (by norm_num) hi
  obtain ⟨j, hj64, htj, hmin, hfind⟩ := findLowestSetBit_spec h0 h64
  rw [Nat.testBit_two_pow] at htj
  have hij : i = j := by simpa using htj
  rw [hfind, hij]

/-- Claim C5.  ContractBins is a no-op on a zero or single-bit mask;
otherwise it clears the lowest-order set bit, remaps every bin from its
old key to `old &&& newMask`, and resolves collisions by merging: the
resulting bin at each key concatenates the colliding bins' message lists
in table order (each contributing bin's internal order retained) and
unions their subscriber maps with later entries overwriting earlier ones
on client-ID collision. -/
theorem c5_contract_merges_bins (bm : BinManager) (h64 : bm.currentMask < 2 ^ 64)
    (hWF : ∀ q ∈ bm.bins, (q.2.Clients.map Prod.fst).Nodup) :
    (bm.currentMask = 0 → bm.ContractBins = bm) ∧
    (∀ i, bm.currentMask = 2 ^ i → bm.ContractBins = bm) ∧
    (bm.currentMask ≠ 0 → (∀ i, bm.currentMask ≠ 2 ^ i) →
      ∃ i, i < 64 ∧ bm.currentMask.testBit i = true ∧
        (∀ j, j < i → bm.currentMask.testBit j = false) ∧
        bm.ContractBins.currentMask = bm.currentMask &&& ((2 ^ 64 - 1) ^^^ 2 ^ i) ∧
        ∀ k, ((bm.bins.filter
              (fun q => q.1 &&& bm.ContractBins.currentMask == k)).map Prod.snd = [] →
            lookupAssoc bm.ContractBins.bins k = none) ∧
          (∀ b bs, (bm.bins.filter
              (fun q => q.1 &&& bm.ContractBins.currentMask == k)).map Prod.snd = b :: bs →
            ∃ rb, lookupAssoc bm.ContractBins.bins k = some rb ∧
              rb.Messages = (b :: bs).flatMap Bin.Messages ∧
              ∀ cid, lookupAssoc rb.Clients cid = unionLookup (b :: bs) cid)) := by
  refine ⟨?_, ?_, ?_⟩
  · intro h0
    simp [BinManager.ContractBins, h0, findLowestSetBit_zero]
  · intro i hi
    have hi64 : i < 64 := by
      by_contra hge
      push_neg at hge
      have : (2 : Nat) ^ 64 ≤ 2 ^ i := Nat.pow_le_pow_right (by norm_num) hge
      omega
    simp [BinManager.ContractBins, hi, findLowestSetBit_two_pow hi64]
  · intro h0 hpow
    obtain ⟨i, hi64, hti, hmin, hfind⟩ := findLowestSetBit_spec h0 h64
    have hguard : ¬ ((2 : Nat) ^ i = 0 ∨ bm.currentMask = 2 ^ i) := by
      push_neg
      exact ⟨Nat.pos_iff_ne_zero.mp (Nat.pos_pow_of_pos i (by norm_num)), hpow i⟩
    have hcb : bm.ContractBins =
        { bm with
          currentMask := bm.currentMask &&& ((2 ^ 64 - 1) ^^^ 2 ^ i),
          bins := bm.bins.foldl
            (contractStep (bm.currentMask &&& ((2 ^ 64 - 1) ^^^ 2 ^ i))) [] } := by
      simp only [BinManager.ContractBins, hfind]
      rw [if_neg hguard]
    refine ⟨i, hi64, hti, hmin, by rw [hcb], ?_⟩
    intro k
    have hmask : bm.ContractBins.currentMask = bm.currentMask &&& ((2 ^ 64 - 1) ^^^ 2 ^ i) := by
      rw [hcb]
    have hlook : ∀ k', lookupAssoc bm.ContractBins.bins k' =
        mergeGroup ((bm.bins.filter
          (fun q => q.1 &&& bm.ContractBins.currentMask == k')).map Prod.snd) := by
      intro k'
      rw [hmask]
      rw [show bm.ContractBins.bins = bm.bins.foldl
        (contractStep (bm.currentMask &&& ((2 ^ 64 - 1) ^^^ 2 ^ i))) [] by rw [hcb]]
      have hbase : ∀ kk, lookupAssoc ([] : List (Nat × Bin)) kk =
          mergeGroup ((List.filter
            (fun q => q.1 &&& (bm.currentMask &&& ((2 ^ 64 - 1) ^^^ 2 ^ i)) == kk)
            ([] : List (Nat × Bin))).map Prod.snd) := by
        intro kk
        simp [lookupAssoc, mergeGroup]
      have := contract_fold_lookup (bm.currentMask &&& ((2 ^ 64 - 1) ^^^ 2 ^ i)) bm.bins
        [] [] hbase k'
      simpa using this
    constructor
    · intro hnil
      rw [hlook k, hnil]
      rfl
    · intro b bs hcons
      rw [hlook k, hcons]
      refine ⟨bs.foldl Bin.mergeFrom b, rfl, ?_, ?_⟩
      · rw [foldl_mergeFrom_Messages]
        simp [List.flatMap_cons]
      · have hmemnd : ∀ x ∈ (bm.bins.filter
            (fun q => q.1 &&& bm.ContractBins.currentMask == k)).map Prod.snd,
            (x.Clients.map Prod.fst).Nodup := by
          intro x hx
          obtain ⟨q, hq, hq2⟩ := List.mem_map.mp hx
          rw [← hq2]
          exact hWF q (List.mem_of_mem_filter hq)
        rw [hcons] at hmemnd
        exact foldl_mergeFrom_lookupClient bs b
          (hmemnd b (List.mem_cons_self _ _))
          (fun o ho => hmemnd o (List.mem_cons_of_mem _ ho))

/-- Claim C5 witness: under mask 3, bins 0 and 1 collide on the new key 0
after contraction clears bit 0; the surviving bin holds both message
lists concatenated in table order, and the second bin's subscriber entry
for "x" overwrites the first bin's. -/
theorem c5_witness :
    ∃ rb, lookupAssoc (BinManager.ContractBins
        { bins := [(0, { ID := 0, Messages := [Message.mk 0 "mA" [1] 1],
                         Clients := [("x", 10)] }),
                   (1, { ID := 1, Messages := [Message.mk 1 "mB" [2] 2],
                         Clients := [("x", 20), ("y", 30)] })],
          currentMask := 3, retention := 10 }).bins 0 = some rb ∧
      rb.Messages = ([{ ID := 0, Messages := [Message.mk 0 "mA" [1] 1],
                        Clients := [("x", 10)] },
                      { ID := 1, Messages := [Message.mk 1 "mB" [2] 2],
                        Clients := [("x", 20), ("y", 30)] }] : List Bin).flatMap Bin.Messages ∧
      ∀ cid, lookupAssoc rb.Clients cid =
        unionLookup [{ ID := 0, Messages := [Message.mk 0 "mA" [1] 1],
                       Clients := [("x", 10)] },
                     { ID := 1, Messages := [Message.mk 1 "mB" [2] 2],
                       Clients := [("x", 20), ("y", 30)] }] cid := by
  have hpow : ∀ i, (3 : Nat) ≠ 2 ^ i := by
    intro i
    match i with
    | 0 => decide
    | 1 => decide
    | (j + 2) =>
      have h4 : (2 : Nat) ^ (j + 2) = 4 * 2 ^ j := by ring
      have h1 : 1 ≤ (2 : Nat) ^ j := Nat.one_le_two_pow
      omega
  obtain ⟨i, _, _, _, _, hk⟩ :=
    (c5_contract_merges_bins
      { bins := [(0, { ID := 0, Messages := [Message.mk 0 "mA" [1] 1],
                       Clients := [("x", 10)] }),
                 (1, { ID := 1, Messages := [Message.mk 1 "mB" [2] 2],
                       Clients := [("x", 20), ("y", 30)] })],
        currentMask := 3, retention := 10 } (by decide) (by decide)).2.2 (by decide) hpow
  exact (hk 0).2 _ _ (by decide)

end Anonofi
